import Mathlib

set_option autoImplicit false

namespace Littleconf

/-
Shallow embedding of the littleconf configuration loader
(src/lib/littleconf.ts, re-exported through src/lib/index.ts).

Configuration values (results of parsing a config file, environment
blocks, override mappings, merged results) are untyped JavaScript-like
trees of scalars, arrays and objects.  Objects are ordered key/value
sequences, mirroring JavaScript property-insertion order; JavaScript
objects cannot hold duplicate keys, which is captured where needed by
the `wfKeys` well-formedness predicate below.

`JVal`, `JFields` and `JList` form one mutual inductive so that every
operation on them is structurally recursive (hence kernel-evaluable on
concrete inputs).
-/

mutual

inductive JVal : Type where
  | null : JVal
  | bool : Bool → JVal
  | num : Int → JVal
  | str : String → JVal
  | arr : JList → JVal
  | obj : JFields → JVal

inductive JList : Type where
  | nil : JList
  | cons : JVal → JList → JList

inductive JFields : Type where
  | nil : JFields
  | cons : String → JVal → JFields → JFields

end

/-- Convenience: build a `JFields` from a Lean list of pairs. -/
def JFields.ofList : List (String × JVal) → JFields
  | [] => JFields.nil
  | (k, v) :: rest => JFields.cons k v (JFields.ofList rest)

/-- Convenience: build a `JList` from a Lean list. -/
def JList.ofList : List JVal → JList
  | [] => JList.nil
  | v :: rest => JList.cons v (JList.ofList rest)

/-- First binding of key `k` in an object's field list (JavaScript property
lookup `o[k]`; real JS objects never hold duplicate keys). -/
def findVal (k : String) : JFields → Option JVal
  | JFields.nil => none
  | JFields.cons k' v rest => if k' = k then some v else findVal k rest

/-- JavaScript property assignment `o[k] = v`: replaces the value of an
existing key in place (keeping its position) or appends a new key at the
end, mirroring JS property-insertion order. -/
def setField : JFields → String → JVal → JFields
  | JFields.nil, k, v => JFields.cons k v JFields.nil
  | JFields.cons k' w rest, k, v =>
      if k' = k then JFields.cons k v rest else JFields.cons k' w (setField rest k v)

/-- Whether key `k` occurs in the field list. -/
def keyMem (k : String) : JFields → Bool
  | JFields.nil => false
  | JFields.cons k' _ rest => k' = k || keyMem k rest

/-- JavaScript `delete o[k]`: removes the binding of `k` (JS objects hold at
most one binding per key; on our ordered lists this removes the first). -/
def deleteField : JFields → String → JFields
  | JFields.nil, _ => JFields.nil
  | JFields.cons k' v rest, k =>
      if k' = k then rest else JFields.cons k' v (deleteField rest k)

/-- JavaScript truthiness of a configuration value: `null`, `false`, `0` and
`""` are falsy; arrays and objects are always truthy. -/
def jsTruthy : JVal → Bool
  | JVal.null => false
  | JVal.bool b => b
  | JVal.num n => n != 0
  | JVal.str s => s != ""
  | JVal.arr _ => true
  | JVal.obj _ => true

mutual

/-- Modelled from the spec: the deep-merge primitive `objtools.merge`
(an external library collaborator, not part of this repository).  Spec
§4.6: "for each key, if both existing and incoming values are mappings,
merge recursively; otherwise the incoming (later) source's value replaces
the existing one entirely (no array concatenation — arrays/sequences are
replaced wholesale, not merged element-wise)".  `mergeVals a b` merges the
incoming source `b` into the existing value `a`. -/
def mergeVals (a : JVal) : JVal → JVal
  | JVal.obj fb =>
      match a with
      | JVal.obj fa => JVal.obj (mergeIntoFields fa fb)
      | _ => JVal.obj fb
  | b => b

/-- Modelled from the spec: merge the incoming fields `fb`, left to right,
into the existing fields `fa` (JS in-place update order: existing keys keep
their position, new keys are appended). -/
def mergeIntoFields (fa : JFields) : JFields → JFields
  | JFields.nil => fa
  | JFields.cons k w rest =>
      mergeIntoFields
        (setField fa k
          (match findVal k fa with
           | some v => mergeVals v w
           | none => w))
        rest

end

/-- Modelled from the spec: the variadic `objtools.merge({}, ...configs)`
call in `_mergeConfig` — fold the sources left to right into a fresh empty
object, later sources taking precedence. -/
def mergeAll (configs : List JVal) : JVal :=
  configs.foldl mergeVals (JVal.obj JFields.nil)

mutual

/-- The `removeNulls` helper inside `_mergeConfig` (littleconf.ts lines
211–220): recursively walk the merged result and delete every key whose
value is exactly `null`.  Non-object scalars are returned unchanged; the
walk descends into both objects and arrays (JS `for key in` iterates array
indices too, and `delete arr[i]` leaves a hole, i.e. the index key is
gone). -/
def removeNulls : JVal → JVal
  | JVal.obj fs => JVal.obj (removeNullsF fs)
  | JVal.arr xs => JVal.arr (removeNullsL xs)
  | v => v

def removeNullsF : JFields → JFields
  | JFields.nil => JFields.nil
  | JFields.cons k v rest =>
      match v with
      | JVal.null => removeNullsF rest
      | v => JFields.cons k (removeNulls v) (removeNullsF rest)

def removeNullsL : JList → JList
  | JList.nil => JList.nil
  | JList.cons v rest =>
      match v with
      | JVal.null => removeNullsL rest
      | v => JList.cons (removeNulls v) (removeNullsL rest)

end

/-- `LittleConf._mergeConfig(...configs)` (littleconf.ts lines 208–223):
deep-merge all sources into a fresh object, then strip `null`-valued keys
in a single post-merge recursive pass. -/
def mergeConfig (configs : List JVal) : JVal :=
  removeNulls (mergeAll configs)

/-! String helpers.  These are written over `String.data` (lists of
characters) so that every concrete computation reduces inside the kernel. -/

/-- Whether `p` is a leading segment of `s` (character lists). -/
def isPreL : List Char → List Char → Bool
  | [], _ => true
  | _ :: _, [] => false
  | p :: ps, c :: cs => p = c && isPreL ps cs

/-- JavaScript `s.startsWith(p)` on our strings. -/
def strStarts (s p : String) : Bool := isPreL p.data s.data

/-- Drop the first `n` characters of a string. -/
def strDropChars (s : String) (n : Nat) : String := String.mk (s.data.drop n)

/-- The regex test `/\.js$/.test(filename)` in `_loadFile`. -/
def endsDotJs (s : String) : Bool := isPreL ".js".data.reverse s.data.reverse

/-- JavaScript `name.toUpperCase().replace(/[^A-Z0-9]/g, '_')` — the
project-name-to-environment-variable transform used throughout
littleconf.ts (lines 92, 264, 282).  Case mapping is ASCII, as in the
overwhelmingly common case (exotic Unicode one-to-many case mappings are
outside the model). -/
def upperSnakeChar (c : Char) : Char :=
  let u := c.toUpper
  if ('A' ≤ u && u ≤ 'Z') || ('0' ≤ u && u ≤ '9') then u else '_'

def upperSnake (s : String) : String := String.mk (s.data.map upperSnakeChar)

/-- JavaScript regex `.` does not match line terminators, so a pattern
`^P(.*)$` (without the multiline flag) matches exactly the strings that
start with `P` and whose remainder is free of line terminators. -/
def noLineTerm (s : String) : Bool :=
  s.data.all (fun c => !(c = '\n' || c = '\r' || c = Char.ofNat 0x2028 || c = Char.ofNat 0x2029))

/-- Split a character list at `'.'` separators (JavaScript
`path.split('.')` as used by the dotted-path helpers). -/
def splitDotsL : List Char → List (List Char)
  | [] => [[]]
  | c :: rest =>
      if c = '.' then [] :: splitDotsL rest
      else
        match splitDotsL rest with
        | [] => [[c]]
        | g :: gs => (c :: g) :: gs

def splitDots (s : String) : List String := (splitDotsL s.data).map String.mk

/-- JavaScript truthiness of an optional string value (`undefined` and `""`
are falsy): `some s` exactly when the value is truthy. -/
def truthyOpt : Option String → Option String
  | none => none
  | some s => if s = "" then none else some s

/-- JavaScript `o || d` for an optional string `o` and default `d`. -/
def truthyOr (o : Option String) (d : String) : String :=
  match o with
  | none => d
  | some s => if s = "" then d else s

/-- First value bound to `k` in an association list (JS object lookup over
`process.env` / `argv`, whose keys are unique in reality). -/
def findStr (l : List (String × String)) (k : String) : Option String :=
  match l with
  | [] => none
  | (k', v) :: rest => if k' = k then some v else findStr rest k

/-! The caller-supplied options and the loader state. -/

/-- The `LittleConfOptions` record (littleconf.ts lines 6–19).  `argv`
values are modelled as strings (the TypeScript type is `any`; littleconf
reads them as strings), and the filename options are strings, exactly as
in the TypeScript declaration. -/
structure LittleConfOptions where
  argv : Option (List (String × String)) := none
  environmentOverride : Option String := none
  cliArgumentEnvironment : Option String := none
  rootDir : Option String := none
  envVariableEnvironment : Option String := none
  defaultEnvironment : Option String := none
  defaultsFilename : Option String := none
  filenameOverride : Option String := none
  filename : Option String := none
  cliArgumentFile : Option String := none
  envVariableFile : Option String := none
  projectName : Option String := none
  deriving DecidableEq

/-- The mutable fields of a `LittleConf` instance (littleconf.ts lines
50–58): the options plus the lazily-cached project name, environment name
and root directory. -/
structure LittleConf where
  options : LittleConfOptions
  projectName : Option String := none
  environment : Option String := none
  rootDir : Option String := none

/-- The ambient process state consumed by the loader: the process
environment (in enumeration order), the working directory (as absolute
path segments), and the filesystem collaborators.  `readYaml f` models
`yaml.safeLoad(fs.readFileSync(f))` — `Except.error` is a thrown parse
error; `readModule f` models `(await import(f)).default` — `Except.error`
is a failed module load; `pkgName p` models the `name` field of
`JSON.parse(fs.readFileSync(p))` for a manifest that parses (manifest
parse failures are outside the claims under check). -/
structure Sys where
  env : List (String × String)
  cwd : List String
  fsExists : String → Bool
  readYaml : String → Except String JVal
  readModule : String → Except String JVal
  pkgName : String → Option String

/-- A `string | string[]` value, as accepted by `_resolvePath`. -/
inductive StrOrArr : Type where
  | str : String → StrOrArr
  | arr : List String → StrOrArr
  deriving DecidableEq

/-- The `Array.isArray` normalisation at the top of `_resolvePath`. -/
def StrOrArr.toList : StrOrArr → List String
  | StrOrArr.str s => [s]
  | StrOrArr.arr xs => xs

/-- JavaScript truthiness of a `string | string[]` local (an array is
always truthy, a string is truthy when nonempty). -/
def truthySA : StrOrArr → Bool
  | StrOrArr.str s => s != ""
  | StrOrArr.arr _ => true

/-- `path.isAbsolute(filename)` (POSIX). -/
def isAbsolutePath (f : String) : Bool :=
  match f.data with
  | '/' :: _ => true
  | _ => false

/-- `path.resolve(searchPath, filename)`: the filename itself when
absolute, else joined under the search path (path normalisation is
immaterial for the claims and is modelled as plain joining). -/
def joinPath (searchPath f : String) : String :=
  if isAbsolutePath f then f else searchPath ++ "/" ++ f

/-- The nested loops of `_resolvePath` (littleconf.ts lines 229–235):
outer loop over search directories, inner loop over filename candidates,
returning the first existing absolute path. -/
def resolveInDir (sys : Sys) (searchPath : String) : List String → Option String
  | [] => none
  | f :: rest =>
      let absolutePath := joinPath searchPath f
      if sys.fsExists absolutePath then some absolutePath
      else resolveInDir sys searchPath rest

def resolveLoop (sys : Sys) (filenames : List String) : List String → Option String
  | [] => none
  | sp :: rest =>
      match resolveInDir sys sp filenames with
      | some p => some p
      | none => resolveLoop sys filenames rest

/-- `LittleConf._resolvePath(filenames, searchPaths)` (littleconf.ts lines
225–236). -/
def resolvePath (sys : Sys) (filenames searchPaths : StrOrArr) : Option String :=
  resolveLoop sys filenames.toList searchPaths.toList

/-- Whether a parsed document is kept by `_loadFile`'s
`typeof result !== 'object' || !result` guard: `null` and scalars are
replaced by `{}`, arrays and objects are kept. -/
def isObjectTruthy : JVal → Bool
  | JVal.arr _ => true
  | JVal.obj _ => true
  | _ => false

/-- `LittleConf._loadFile(filename)` (littleconf.ts lines 194–206).  A
falsy (`none`/empty) or non-existent path contributes `{}`; a `.js` path
is dynamically imported (its default export used as-is); any other path is
read and parsed as YAML, non-object documents degrading to `{}`.  Parse
and module-load failures propagate as errors. -/
def loadFile (sys : Sys) (filename : Option String) : Except String JVal :=
  match filename with
  | none => Except.ok (JVal.obj JFields.nil)
  | some f =>
      if f = "" then Except.ok (JVal.obj JFields.nil)
      else if !sys.fsExists f then Except.ok (JVal.obj JFields.nil)
      else if endsDotJs f then sys.readModule f
      else
        match sys.readYaml f with
        | Except.error e => Except.error e
        | Except.ok result =>
            if !isObjectTruthy result then Except.ok (JVal.obj JFields.nil)
            else Except.ok result

/-! Dotted-path get and set (the `objtools.getPath` / `objtools.setPath`
library collaborators). -/

/-- Modelled from the spec: `objtools.getPath(obj, path)` — "dotted path:
a string addressing a nested location in a mapping, segments separated by
`.`" (spec glossary); returns the value at that nested location, or
nothing when any intermediate step is missing or not a mapping. -/
def getPathL : List String → JVal → Option JVal
  | [], v => some v
  | k :: rest, JVal.obj fs =>
      match findVal k fs with
      | some w => getPathL rest w
      | none => none
  | _ :: _, _ => none

def getPath (v : JVal) (path : String) : Option JVal :=
  getPathL (splitDots path) v

/-- The `objtools.getPath(config, 'environments.' + env) || {}` pattern of
`loadConfig` (littleconf.ts lines 303 and 305): a missing or falsy
environment block degrades to the empty mapping. -/
def getPathD (v : JVal) (path : String) : JVal :=
  match getPath v path with
  | some w => if jsTruthy w then w else JVal.obj JFields.nil
  | none => JVal.obj JFields.nil

/-- The fields of a value when it is an object, else none at all. -/
def objFieldsOf : JVal → JFields
  | JVal.obj fs => fs
  | _ => JFields.nil

/-- Modelled from the spec: `objtools.setPath(obj, path, value)` — spec
§4.5: "dotted-path assignment creates intermediate nested mappings as
needed; a later assignment to a path that is a prefix of an earlier one
(or vice versa) overwrites the conflicting branch".  A non-mapping value
standing where the path needs to nest is overwritten by a fresh
mapping. -/
def setPathL : List String → JVal → JVal → JVal
  | [], _, nv => nv
  | k :: rest, v, nv =>
      let fs := objFieldsOf v
      JVal.obj (setField fs k (setPathL rest ((findVal k fs).getD (JVal.obj JFields.nil)) nv))

def setPath (v : JVal) (path : String) (nv : JVal) : JVal :=
  setPathL (splitDots path) v nv

/-! Override collection (littleconf.ts lines 280–297). -/

/-- The regex match `^<prefix>(.*)$` against a key: the remainder after
the literal leading pattern, provided it contains no line terminators
(which JavaScript `.` never matches). -/
def matchRest (pre key : String) : Option String :=
  if strStarts key pre then
    let rest := strDropChars key pre.data.length
    if noLineTerm rest then some rest else none
  else none

/-- The environment-variable override loop of `loadConfig` (littleconf.ts
lines 284–289): every process environment variable matching
`^<PROJECT_NAME_UPPER_SNAKE>_CONFIG_(.*)$` is assigned, in enumeration
order, into the accumulating override mapping at the dotted path given by
the remainder, with its string value. -/
def collectEnvOverrides (pre : String) (env : List (String × String)) (acc : JVal) : JVal :=
  env.foldl
    (fun acc kv =>
      match matchRest pre kv.1 with
      | some rest => setPath acc rest (JVal.str kv.2)
      | none => acc)
    acc

/-- The command-line override loop of `loadConfig` (littleconf.ts lines
292–297): every `argv` key matching `^config-setting-(.*)$` is assigned
into the override mapping at the dotted path given by the remainder. -/
def collectArgvOverrides (argv : Option (List (String × String))) (acc : JVal) : JVal :=
  (argv.getD []).foldl
    (fun acc kv =>
      match matchRest "config-setting-" kv.1 with
      | some rest => setPath acc rest (JVal.str kv.2)
      | none => acc)
    acc

/-! Project identity and environment resolution (littleconf.ts lines
60–184).  Methods that read the instance caches are modelled as explicit
state-passing functions `LittleConf → Sys → α × LittleConf`. -/

/-- `LittleConf._getCLIArgument(name)` (littleconf.ts lines 67–73). -/
def getCLIArgument (lc : LittleConf) (name : String) : Option String :=
  match lc.options.argv with
  | some argv => findStr argv name
  | none => none

/-- Render absolute path segments: `[] ↦ "/"`, `[a,b] ↦ "/a/b"`. -/
def joinSegs : List String → String
  | [] => ""
  | [s] => s
  | s :: rest => s ++ "/" ++ joinSegs rest

def renderSegs : List String → String
  | [] => "/"
  | segs => "/" ++ joinSegs segs

/-- The upward walk of `_findProjectRootDir` (littleconf.ts lines
137–147), on the reversed segment list of the starting directory: peel
the last segment until a directory containing `package.json` is found;
at the filesystem root the parent equals the directory, so the walk
stops. -/
def findRootWalk (sys : Sys) : List String → Option String
  | [] =>
      if sys.fsExists (renderSegs [] ++ "/package.json") then some (renderSegs []) else none
  | s :: above =>
      let segs := (s :: above).reverse
      if sys.fsExists (renderSegs segs ++ "/package.json") then some (renderSegs segs)
      else findRootWalk sys above

/-- `LittleConf._findProjectRootDir()` (littleconf.ts lines 134–148). -/
def findProjectRootDir (lc : LittleConf) (sys : Sys) : String :=
  match truthyOpt lc.options.rootDir with
  | some s => s
  | none =>
      let mainModuleDir := renderSegs sys.cwd
      match findRootWalk sys sys.cwd.reverse with
      | some d => d
      | none => mainModuleDir

/-- `LittleConf.getProjectRootDir()` (littleconf.ts lines 180–184):
truthy-cached in `this.rootDir`. -/
def getProjectRootDir (lc : LittleConf) (sys : Sys) : String × LittleConf :=
  match truthyOpt lc.rootDir with
  | some d => (d, lc)
  | none =>
      let d := findProjectRootDir lc sys
      (d, { lc with rootDir := some d })

/-- Whether every character may appear in a scoped-package segment
(`[-_A-Za-z0-9]`). -/
def isScopeChar (c : Char) : Bool :=
  c = '-' || c = '_' || ('A' ≤ c && c ≤ 'Z') || ('a' ≤ c && c ≤ 'z') || ('0' ≤ c && c ≤ '9')

/-- Split a character list at a single `'/'`; none when the count of
slashes differs from one. -/
def splitAtSlash : List Char → Option (List Char × List Char)
  | [] => none
  | '/' :: rest => if rest.all (fun c => c ≠ '/') then some ([], rest) else none
  | c :: rest =>
      match splitAtSlash rest with
      | some (a, b) => some (c :: a, b)
      | none => none

/-- The scope-stripping regex `/^@([-_A-Za-z0-9]+)\/([-_A-Za-z0-9]+)$/`
of `_findProjectName` (littleconf.ts lines 122–123): a name of the shape
`@scope/pkg` is replaced by `pkg`. -/
def stripScope (name : String) : String :=
  match name.data with
  | '@' :: rest =>
      match splitAtSlash rest with
      | some (scope, pkg) =>
          if scope ≠ [] && pkg ≠ [] && scope.all isScopeChar && pkg.all isScopeChar then
            String.mk pkg
          else name
      | none => name
  | _ => name

/-- `LittleConf._findProjectName()` (littleconf.ts lines 107–125): the
truthy `projectName` option, else the truthy `name` of the manifest in the
project root when that file exists, else the literal `"project"`; a
scoped name keeps only its package part. -/
def findProjectName (lc : LittleConf) (sys : Sys) : String × LittleConf :=
  let found : Option String × LittleConf :=
    match truthyOpt lc.options.projectName with
    | some s => (some s, lc)
    | none =>
        let rdp := getProjectRootDir lc sys
        let pkgPath := rdp.1 ++ "/package.json"
        if sys.fsExists pkgPath then
          match sys.pkgName pkgPath with
          | some s => (if s = "" then none else some s, rdp.2)
          | none => (none, rdp.2)
        else (none, rdp.2)
  match found.1 with
  | none => ("project", found.2)
  | some n => (stripScope n, found.2)

/-- `LittleConf.getProjectName()` (littleconf.ts lines 156–160):
truthy-cached in `this.projectName`. -/
def getProjectName (lc : LittleConf) (sys : Sys) : String × LittleConf :=
  match truthyOpt lc.projectName with
  | some n => (n, lc)
  | none =>
      let p := findProjectName lc sys
      (p.1, { p.2 with projectName := some p.1 })

/-- `LittleConf._findConfigEnvironment()` (littleconf.ts lines 82–98): the
priority chain over the environment override option, the CLI argument, the
project (or configured) environment variable, `NODE_ENV`, and the default,
each gated by JavaScript truthiness. -/
def findConfigEnvironment (lc : LittleConf) (sys : Sys) : String × LittleConf :=
  match truthyOpt lc.options.environmentOverride with
  | some s => (s, lc)
  | none =>
      let cliEnv := getCLIArgument lc (truthyOr lc.options.cliArgumentEnvironment "config-env")
      match truthyOpt cliEnv with
      | some s => (s, lc)
      | none =>
          let ev : String × LittleConf :=
            match truthyOpt lc.options.envVariableEnvironment with
            | some s => (s, lc)
            | none =>
                let p := getProjectName lc sys
                (upperSnake p.1 ++ "_ENV", p.2)
          match truthyOpt (findStr sys.env ev.1) with
          | some s => (s, ev.2)
          | none =>
              match truthyOpt (findStr sys.env "NODE_ENV") with
              | some s => (s, ev.2)
              | none => (truthyOr lc.options.defaultEnvironment "local", ev.2)

/-- `LittleConf.getConfigEnvironment()` (littleconf.ts lines 168–172):
truthy-cached in `this.environment`. -/
def getConfigEnvironment (lc : LittleConf) (sys : Sys) : String × LittleConf :=
  match truthyOpt lc.environment with
  | some e => (e, lc)
  | none =>
      let p := findConfigEnvironment lc sys
      (p.1, { p.2 with environment := some p.1 })

/-! The orchestrating `loadConfig` (littleconf.ts lines 244–311). -/

/-- The defaults-filename block of `loadConfig` (littleconf.ts lines
246–252): the truthy `defaultsFilename` option, else the candidate pair
`<name>-defaults.conf` / `<name>-defaults.conf.js` (both `getProjectName`
calls in the source return the same cached name, so a single threaded call
suffices). -/
def defaultsCandidate (lc : LittleConf) (sys : Sys) : StrOrArr × LittleConf :=
  match truthyOpt lc.options.defaultsFilename with
  | some s => (StrOrArr.str s, lc)
  | none =>
      let p := getProjectName lc sys
      (StrOrArr.arr [p.1 ++ "-defaults.conf", p.1 ++ "-defaults.conf.js"], p.2)

/-- The main-filename chain of `loadConfig` (littleconf.ts lines 258–275),
first truthy value wins: the `filenameOverride` option; the CLI argument
named by `cliArgumentFile` or `c`; the environment variable named by
`envVariableFile` or `<PROJECT_NAME_UPPER_SNAKE>_CONFIG` (the derived name
is only computed when the option is falsy, as `||` short-circuits); the
`filename` option; else the candidate pair `<name>.conf` /
`<name>.conf.js`. -/
def mainCandidate (lc : LittleConf) (sys : Sys) : StrOrArr × LittleConf :=
  match truthyOpt lc.options.filenameOverride with
  | some s => (StrOrArr.str s, lc)
  | none =>
      match truthyOpt (getCLIArgument lc (truthyOr lc.options.cliArgumentFile "c")) with
      | some s => (StrOrArr.str s, lc)
      | none =>
          let ev : String × LittleConf :=
            match truthyOpt lc.options.envVariableFile with
            | some s => (s, lc)
            | none =>
                let p := getProjectName lc sys
                (upperSnake p.1 ++ "_CONFIG", p.2)
          match truthyOpt (findStr sys.env ev.1) with
          | some s => (StrOrArr.str s, ev.2)
          | none =>
              match truthyOpt (ev.2).options.filename with
              | some s => (StrOrArr.str s, ev.2)
              | none =>
                  let p := getProjectName ev.2 sys
                  (StrOrArr.arr [p.1 ++ ".conf", p.1 ++ ".conf.js"], p.2)

/-- JavaScript `delete merged.environments` (littleconf.ts line 308): a
no-op on non-objects. -/
def deleteTop (v : JVal) (k : String) : JVal :=
  match v with
  | JVal.obj fs => JVal.obj (deleteField fs k)
  | v => v

/-- Top-level property lookup on the final result (none on
non-objects). -/
def topFind (v : JVal) (k : String) : Option JVal :=
  match v with
  | JVal.obj fs => findVal k fs
  | _ => none

/-- `LittleConf.loadConfig()` (littleconf.ts lines 244–311): resolve and
load the defaults file; resolve (override chain) and load the main file;
collect environment-variable then CLI overrides; merge, in order, the
defaults config, its `environments.<env>` block (or `{}`), the main
config, its `environments.<env>` block (or `{}`), and the overrides; strip
nulls; delete the top-level `environments` key.  A throwing file load
aborts the call with that error. -/
def loadConfig (lc0 : LittleConf) (sys : Sys) : Except String JVal × LittleConf :=
  let dc := defaultsCandidate lc0 sys
  let rd1 := getProjectRootDir dc.2 sys
  let defaultsPath := resolvePath sys dc.1 (StrOrArr.str rd1.1)
  match loadFile sys defaultsPath with
  | Except.error e => (Except.error e, rd1.2)
  | Except.ok defaultsConfig =>
      let mc := mainCandidate rd1.2 sys
      let rd2 := getProjectRootDir mc.2 sys
      let mainPath := resolvePath sys mc.1 (StrOrArr.arr [rd2.1, "/etc"])
      match (match mainPath with
             | some p => loadFile sys (some p)
             | none => Except.ok (JVal.obj JFields.nil)) with
      | Except.error e => (Except.error e, rd2.2)
      | Except.ok mainConfig =>
          let pn := getProjectName rd2.2 sys
          let overrides :=
            collectArgvOverrides (pn.2).options.argv
              (collectEnvOverrides (upperSnake pn.1 ++ "_CONFIG_") sys.env (JVal.obj JFields.nil))
          let env := getConfigEnvironment pn.2 sys
          let merged := mergeConfig
            [defaultsConfig,
             getPathD defaultsConfig ("environments." ++ env.1),
             mainConfig,
             getPathD mainConfig ("environments." ++ env.1),
             overrides]
          (Except.ok (deleteTop merged "environments"), env.2)

/-! Selectors naming the intermediate values `loadConfig` computes, step
by step and in the source's state-threading order.  They let the theorems
below identify the exact five sources of the final merge rather than
quantify over unknown values. -/

/-- The defaults-file path `loadConfig` resolves (littleconf.ts lines
246–253). -/
def defaultsPathOf (lc : LittleConf) (sys : Sys) : Option String :=
  let dc := defaultsCandidate lc sys
  let rd1 := getProjectRootDir dc.2 sys
  resolvePath sys dc.1 (StrOrArr.str rd1.1)

/-- The parsed defaults config `loadConfig` loads (littleconf.ts line
254). -/
def defaultsConfigOf (lc : LittleConf) (sys : Sys) : Except String JVal :=
  loadFile sys (defaultsPathOf lc sys)

/-- The loader state after the defaults-file phase. -/
def lcAfterDefaults (lc : LittleConf) (sys : Sys) : LittleConf :=
  (getProjectRootDir (defaultsCandidate lc sys).2 sys).2

/-- The main-file path `loadConfig` resolves (littleconf.ts lines
258–277). -/
def mainPathOf (lc : LittleConf) (sys : Sys) : Option String :=
  let mc := mainCandidate (lcAfterDefaults lc sys) sys
  let rd2 := getProjectRootDir mc.2 sys
  resolvePath sys mc.1 (StrOrArr.arr [rd2.1, "/etc"])

/-- The parsed main config `loadConfig` loads (littleconf.ts line 278):
an unresolved path contributes the empty mapping. -/
def mainConfigOf (lc : LittleConf) (sys : Sys) : Except String JVal :=
  match mainPathOf lc sys with
  | some p => loadFile sys (some p)
  | none => Except.ok (JVal.obj JFields.nil)

/-- The loader state after the main-file phase. -/
def lcAfterMain (lc : LittleConf) (sys : Sys) : LittleConf :=
  (getProjectRootDir (mainCandidate (lcAfterDefaults lc sys) sys).2 sys).2

/-- The override mapping `loadConfig` collects (littleconf.ts lines
280–297): environment-variable overrides first, then CLI overrides. -/
def overridesOf (lc : LittleConf) (sys : Sys) : JVal :=
  let pn := getProjectName (lcAfterMain lc sys) sys
  collectArgvOverrides (pn.2).options.argv
    (collectEnvOverrides (upperSnake pn.1 ++ "_CONFIG_") sys.env (JVal.obj JFields.nil))

/-- The environment name `loadConfig` resolves (littleconf.ts line
300). -/
def envOf (lc : LittleConf) (sys : Sys) : String :=
  (getConfigEnvironment (getProjectName (lcAfterMain lc sys) sys).2 sys).1

/-! The memoized `getConfig` wrapper (src/lib/index.ts lines 5–16). -/

/-- The process-wide `configCache`, modelled as an association list keyed
by the options value itself: `sha1(JSON.stringify(options))` is an
injective content hash of the serialized options record (hash collisions
are outside the model, and the record type fixes a canonical field
order for serialization). -/
def cacheGet : List (LittleConfOptions × JVal) → LittleConfOptions → Option JVal
  | [], _ => none
  | (k, v) :: rest, o => if k = o then some v else cacheGet rest o

def cacheSet : List (LittleConfOptions × JVal) → LittleConfOptions → JVal → List (LittleConfOptions × JVal)
  | [], o, v => [(o, v)]
  | (k, w) :: rest, o, v =>
      if k = o then (o, v) :: rest else (k, w) :: cacheSet rest o v

/-- The uncached path of `getConfig` (index.ts lines 13–15): construct a
fresh `LittleConf` and run `loadConfig`, storing the result in the cache
only when the load succeeds (the cache assignment sits after the `await`,
so a rejection leaves the cache untouched).  The final `Bool` records that
`loadConfig` ran (i.e. file loads were performed). -/
def getConfigLoad (cache : List (LittleConfOptions × JVal)) (options : LittleConfOptions)
    (sys : Sys) : Except String JVal × List (LittleConfOptions × JVal) × Bool :=
  let lc : LittleConf := { options := options }
  match (loadConfig lc sys).1 with
  | Except.error e => (Except.error e, cache, true)
  | Except.ok v => (Except.ok v, cacheSet cache options v, true)

/-- `getConfig(options)` (index.ts lines 10–16): return the cached value
when its cache slot holds a truthy value, else run the full load.  The
final `Bool` records whether `loadConfig` ran. -/
def getConfig (cache : List (LittleConfOptions × JVal)) (options : LittleConfOptions)
    (sys : Sys) : Except String JVal × List (LittleConfOptions × JVal) × Bool :=
  let cached := cacheGet cache options
  match cached with
  | some v =>
      if jsTruthy v then (Except.ok v, cache, false)
      else getConfigLoad cache options sys
  | none => getConfigLoad cache options sys

/-! Predicates used by the theorems below. -/

def isNull : JVal → Bool
  | JVal.null => true
  | _ => false

def isObjB : JVal → Bool
  | JVal.obj _ => true
  | _ => false

mutual

/-- No key, at any depth (object keys and array indices alike), holds the
value `null`. -/
def noNullKeys : JVal → Bool
  | JVal.obj fs => noNullKeysF fs
  | JVal.arr xs => noNullKeysL xs
  | _ => true

def noNullKeysF : JFields → Bool
  | JFields.nil => true
  | JFields.cons _ v rest => !isNull v && noNullKeys v && noNullKeysF rest

def noNullKeysL : JList → Bool
  | JList.nil => true
  | JList.cons v rest => !isNull v && noNullKeys v && noNullKeysL rest

end

/-- The keys of a field list are pairwise distinct (always true of a real
JavaScript object). -/
def keysDistinct : JFields → Bool
  | JFields.nil => true
  | JFields.cons k _ rest => !keyMem k rest && keysDistinct rest

mutual

/-- Every object anywhere in the tree has pairwise-distinct keys — the
well-formedness invariant of values originating from real JavaScript
objects. -/
def wfKeys : JVal → Bool
  | JVal.obj fs => keysDistinct fs && wfKeysF fs
  | JVal.arr xs => wfKeysL xs
  | _ => true

def wfKeysF : JFields → Bool
  | JFields.nil => true
  | JFields.cons _ v rest => wfKeys v && wfKeysF rest

def wfKeysL : JList → Bool
  | JList.nil => true
  | JList.cons v rest => wfKeys v && wfKeysL rest

end

/-- First truthy value in a list of optional strings, else the default —
the shape of the priority chain as the specification words it. -/
def firstTruthy : List (Option String) → String → String
  | [], d => d
  | o :: rest, d =>
      match truthyOpt o with
      | some s => s
      | none => firstTruthy rest d

/-- The environment-resolution priority chain exactly as the specification
and claim C2 word it, written independently of the source's early-return
style: first match wins among the `environmentOverride` option; the CLI
argument named by `cliArgumentEnvironment` (default `config-env`); the
environment variable named by `envVariableEnvironment` or, when unset, the
upper-snake project name followed by `_ENV`; `NODE_ENV`; and finally the
`defaultEnvironment` option or the literal `local`. -/
def specResolveEnvironment (opts : LittleConfOptions) (penv : List (String × String))
    (pname : String) : String :=
  firstTruthy
    [ opts.environmentOverride,
      opts.argv.bind (fun a => findStr a (truthyOr opts.cliArgumentEnvironment "config-env")),
      findStr penv (truthyOr opts.envVariableEnvironment (upperSnake pname ++ "_ENV")),
      findStr penv "NODE_ENV" ]
    (truthyOr opts.defaultEnvironment "local")

/-! Concrete fixtures for the end-to-end examples and witnesses. -/

/-- The defaults-file document `{port: 80, environments: {prod: {port: 443}}}`. -/
def exDefaults : JVal :=
  JVal.obj (JFields.ofList
    [("port", JVal.num 80),
     ("environments",
      JVal.obj (JFields.ofList
        [("prod", JVal.obj (JFields.ofList [("port", JVal.num 443)]))]))])

/-- The main-file document `{host: "x"}`. -/
def exMain : JVal := JVal.obj (JFields.ofList [("host", JVal.str "x")])

/-- A process in which `/app/myapp-defaults.conf` and `/app/myapp.conf`
exist and parse to the two documents above, with an empty environment. -/
def exSys : Sys :=
  { env := []
    cwd := []
    fsExists := fun p => p = "/app/myapp-defaults.conf" || p = "/app/myapp.conf"
    readYaml := fun p =>
      if p = "/app/myapp-defaults.conf" then Except.ok exDefaults
      else if p = "/app/myapp.conf" then Except.ok exMain
      else Except.error "parse error"
    readModule := fun _ => Except.error "module error"
    pkgName := fun _ => none }

/-- A loader for project `myapp` rooted at `/app` with the environment
forced to `prod`. -/
def exLC : LittleConf :=
  { options := { projectName := some "myapp", rootDir := some "/app", environmentOverride := some "prod" } }

/-- A process with the single environment variable
`MYAPP_CONFIG_DB_HOST=foo`, and a main config file whose document is
`{DB_HOST: "bar", db: {host: "filehost"}}`. -/
def ovSys : Sys :=
  { env := [("MYAPP_CONFIG_DB_HOST", "foo")]
    cwd := []
    fsExists := fun p => p = "/app/myapp.conf"
    readYaml := fun p =>
      if p = "/app/myapp.conf" then
        Except.ok (JVal.obj (JFields.ofList
          [("DB_HOST", JVal.str "bar"),
           ("db", JVal.obj (JFields.ofList [("host", JVal.str "filehost")]))]))
      else Except.error "parse error"
    readModule := fun _ => Except.error "module error"
    pkgName := fun _ => none }

/-- A loader for project `myapp` rooted at `/app` (environment defaults to
`local`). -/
def ovLC : LittleConf :=
  { options := { projectName := some "myapp", rootDir := some "/app" } }

/-- A filesystem in which only `/D2/f1` and `/D1/f2` exist. -/
def prSys : Sys :=
  { env := []
    cwd := []
    fsExists := fun p => p = "/D2/f1" || p = "/D1/f2"
    readYaml := fun _ => Except.error "parse error"
    readModule := fun _ => Except.error "module error"
    pkgName := fun _ => none }

/-- A process whose defaults file `/app/myapp-defaults.conf` exists but
fails to parse. -/
def badSys : Sys :=
  { env := []
    cwd := []
    fsExists := fun p => p = "/app/myapp-defaults.conf"
    readYaml := fun _ => Except.error "bad parse"
    readModule := fun _ => Except.error "module error"
    pkgName := fun _ => none }

/-- A process in which `/a.conf` parses to the scalar `5` and `/m.js`
fails to load as a module. -/
def numSys : Sys :=
  { env := []
    cwd := []
    fsExists := fun p => p = "/a.conf" || p = "/m.js"
    readYaml := fun _ => Except.ok (JVal.num 5)
    readModule := fun _ => Except.error "module error"
    pkgName := fun _ => none }

/-- Pairwise-distinct keys at the top level only (trivial on
non-objects). -/
def topDistinct : JVal → Bool
  | JVal.obj fs => keysDistinct fs
  | _ => true

/-! Basic lemmas about JavaScript truthiness of optional strings. -/

theorem truthyOpt_ne_empty : ∀ {o : Option String} {s : String}, truthyOpt o = some s → s ≠ ""
  | none, s, h => by simp [truthyOpt] at h
  | some t, s, h => by
      by_cases ht : t = ""
      · simp [truthyOpt, ht] at h
      · simp [truthyOpt, ht] at h
        subst h; exact ht

theorem truthyOpt_some_eq : ∀ {o : Option String} {s : String}, truthyOpt o = some s → o = some s
  | none, s, h => by simp [truthyOpt] at h
  | some t, s, h => by
      by_cases ht : t = ""
      · simp [truthyOpt, ht] at h
      · simp [truthyOpt, ht] at h
        simp [h]

theorem truthyOr_of_some {o : Option String} {s : String} (h : truthyOpt o = some s) :
    ∀ d, truthyOr o d = s := by
  intro d
  cases o with
  | none => simp [truthyOpt] at h
  | some t =>
      by_cases ht : t = ""
      · simp [truthyOpt, ht] at h
      · simp [truthyOpt, ht] at h
        subst h
        simp [truthyOr, ht]

theorem truthyOr_of_none {o : Option String} (h : truthyOpt o = none) :
    ∀ d, truthyOr o d = d := by
  intro d
  cases o with
  | none => simp [truthyOr]
  | some t =>
      by_cases ht : t = ""
      · simp [truthyOr, ht]
      · simp [truthyOpt, ht] at h

theorem truthyOr_ne_empty {o : Option String} {d : String} (h : d ≠ "") : truthyOr o d ≠ "" := by
  cases o with
  | none => simpa [truthyOr]
  | some t => by_cases ht : t = "" <;> simp [truthyOr, ht, h]

theorem getCLIArgument_eq (lc : LittleConf) (n : String) :
    getCLIArgument lc n = lc.options.argv.bind (fun a => findStr a n) := by
  cases h : lc.options.argv <;> simp [getCLIArgument, h]

/-! Null pruning (claim C3). -/

mutual

theorem noNullKeys_removeNulls : ∀ v : JVal, noNullKeys (removeNulls v) = true
  | JVal.null => rfl
  | JVal.bool _ => rfl
  | JVal.num _ => rfl
  | JVal.str _ => rfl
  | JVal.arr xs => by
      simpa [removeNulls, noNullKeys] using noNullKeysL_removeNullsL xs
  | JVal.obj fs => by
      simpa [removeNulls, noNullKeys] using noNullKeysF_removeNullsF fs

theorem noNullKeysF_removeNullsF : ∀ fs : JFields, noNullKeysF (removeNullsF fs) = true
  | JFields.nil => rfl
  | JFields.cons k v rest => by
      cases v with
      | null => simpa [removeNullsF] using noNullKeysF_removeNullsF rest
      | bool b =>
          simp [removeNullsF, noNullKeysF, removeNulls, noNullKeys, isNull,
            noNullKeysF_removeNullsF rest]
      | num n =>
          simp [removeNullsF, noNullKeysF, removeNulls, noNullKeys, isNull,
            noNullKeysF_removeNullsF rest]
      | str s =>
          simp [removeNullsF, noNullKeysF, removeNulls, noNullKeys, isNull,
            noNullKeysF_removeNullsF rest]
      | arr xs =>
          simp [removeNullsF, noNullKeysF, removeNulls, noNullKeys, isNull,
            noNullKeysF_removeNullsF rest, noNullKeysL_removeNullsL xs]
      | obj fs' =>
          simp [removeNullsF, noNullKeysF, removeNulls, noNullKeys, isNull,
            noNullKeysF_removeNullsF rest, noNullKeysF_removeNullsF fs']

theorem noNullKeysL_removeNullsL : ∀ xs : JList, noNullKeysL (removeNullsL xs) = true
  | JList.nil => rfl
  | JList.cons v rest => by
      cases v with
      | null => simpa [removeNullsL] using noNullKeysL_removeNullsL rest
      | bool b =>
          simp [removeNullsL, noNullKeysL, removeNulls, noNullKeys, isNull,
            noNullKeysL_removeNullsL rest]
      | num n =>
          simp [removeNullsL, noNullKeysL, removeNulls, noNullKeys, isNull,
            noNullKeysL_removeNullsL rest]
      | str s =>
          simp [removeNullsL, noNullKeysL, removeNulls, noNullKeys, isNull,
            noNullKeysL_removeNullsL rest]
      | arr xs' =>
          simp [removeNullsL, noNullKeysL, removeNulls, noNullKeys, isNull,
            noNullKeysL_removeNullsL rest, noNullKeysL_removeNullsL xs']
      | obj fs =>
          simp [removeNullsL, noNullKeysL, removeNulls, noNullKeys, isNull,
            noNullKeysL_removeNullsL rest, noNullKeysF_removeNullsF fs]

end

/-- Claim C3: for every list of merge inputs, any key whose value is
exactly `null`, at any depth of the merged result, is absent from the
final result of `_mergeConfig` — and the pruning is a single post-merge
recursive pass over the merged value, regardless of which source
introduced the null. -/
theorem mergeConfig_no_null_keys :
    (∀ configs : List JVal, noNullKeys (mergeConfig configs) = true)
    ∧ (∀ configs : List JVal, mergeConfig configs = removeNulls (mergeAll configs)) :=
  ⟨fun configs => noNullKeys_removeNulls (mergeAll configs), fun _ => rfl⟩

/-! Association-list lemmas for object fields, and the merge
characterisation (claim C7). -/

theorem findVal_setField_self : ∀ (fs : JFields) (k : String) (v : JVal),
    findVal k (setField fs k v) = some v
  | JFields.nil, k, v => by simp [setField, findVal]
  | JFields.cons k' w rest, k, v => by
      by_cases h : k' = k
      · subst h; simp [setField, findVal]
      · simp [setField, findVal, h, findVal_setField_self rest k v]

theorem findVal_setField_other : ∀ (fs : JFields) (j k : String) (v : JVal), k ≠ j →
    findVal j (setField fs k v) = findVal j fs
  | JFields.nil, j, k, v, h => by simp [setField, findVal, h]
  | JFields.cons k' w rest, j, k, v, h => by
      by_cases h' : k' = k
      · subst h'; simp [setField, findVal, h]
      · simp [setField, findVal, h', findVal_setField_other rest j k v h]

theorem findVal_none_of_not_keyMem : ∀ (fs : JFields) (k : String), keyMem k fs = false →
    findVal k fs = none
  | JFields.nil, _, _ => rfl
  | JFields.cons k' w rest, k, h => by
      simp [keyMem] at h
      simp [findVal, h.1, findVal_none_of_not_keyMem rest k h.2]

theorem findVal_mergeIntoFields :
    ∀ (fb fa : JFields) (k : String), keysDistinct fb = true →
      findVal k (mergeIntoFields fa fb) =
        match findVal k fa, findVal k fb with
        | some v, some w => some (mergeVals v w)
        | some v, none => some v
        | none, some w => some w
        | none, none => none
  | JFields.nil, fa, k, _ => by
      cases hfa : findVal k fa <;> simp [mergeIntoFields, findVal, hfa]
  | JFields.cons k' w rest, fa, k, h => by
      simp only [keysDistinct, Bool.and_eq_true, Bool.not_eq_true'] at h
      obtain ⟨h1, h2⟩ := h
      simp only [mergeIntoFields]
      rw [findVal_mergeIntoFields rest _ k h2]
      by_cases hk : k' = k
      · subst hk
        rw [findVal_none_of_not_keyMem rest k' h1, findVal_setField_self]
        cases hfa : findVal k' fa <;> simp [findVal, hfa]
      · rw [findVal_setField_other fa k k' _ hk]
        simp [findVal, hk]

theorem mergeVals_replace (v w : JVal) (h : isObjB v = false ∨ isObjB w = false) :
    mergeVals v w = w := by
  cases w with
  | obj fb =>
      cases v <;> simp [isObjB] at h ⊢ <;> simp [mergeVals]
  | null => simp [mergeVals]
  | bool b => simp [mergeVals]
  | num n => simp [mergeVals]
  | str s => simp [mergeVals]
  | arr xs => simp [mergeVals]

/-- Claim C7: the merge is right-biased and recursive on mappings — for a
key present in both sides the values are merged recursively via
`mergeVals` (which, when either side is not a mapping — arrays included —
replaces the earlier value wholesale with the later one), keys present in
only one side survive; and `_mergeConfig` on `{a:1,b:{x:1}}` then
`{b:{x:2,y:3}}` yields `{a:1,b:{x:2,y:3}}`. -/
theorem mergeConfig_right_biased :
    (∀ (fa fb : JFields) (k : String), keysDistinct fb = true →
        topFind (mergeVals (JVal.obj fa) (JVal.obj fb)) k =
          match findVal k fa, findVal k fb with
          | some v, some w => some (mergeVals v w)
          | some v, none => some v
          | none, some w => some w
          | none, none => none)
    ∧ (∀ v w : JVal, isObjB v = false ∨ isObjB w = false → mergeVals v w = w)
    ∧ mergeConfig
        [JVal.obj (JFields.ofList [("a", JVal.num 1), ("b", JVal.obj (JFields.ofList [("x", JVal.num 1)]))]),
         JVal.obj (JFields.ofList [("b", JVal.obj (JFields.ofList [("x", JVal.num 2), ("y", JVal.num 3)]))])]
      = JVal.obj (JFields.ofList [("a", JVal.num 1),
          ("b", JVal.obj (JFields.ofList [("x", JVal.num 2), ("y", JVal.num 3)]))]) := by
  refine ⟨?_, mergeVals_replace, rfl⟩
  intro fa fb k h
  simpa [mergeVals, topFind] using findVal_mergeIntoFields fb fa k h

/-- Witness for C7 at concrete inputs. -/
theorem mergeConfig_right_biased_witness :
    topFind (mergeVals (JVal.obj (JFields.cons "p" (JVal.num 1) JFields.nil))
        (JVal.obj (JFields.cons "p" (JVal.num 2) JFields.nil))) "p" = some (JVal.num 2)
    ∧ mergeVals (JVal.obj JFields.nil) (JVal.arr JList.nil) = JVal.arr JList.nil := by
  constructor
  · have h := mergeConfig_right_biased.1 (JFields.cons "p" (JVal.num 1) JFields.nil)
      (JFields.cons "p" (JVal.num 2) JFields.nil) "p" rfl
    simpa [findVal, mergeVals] using h
  · exact mergeConfig_right_biased.2.1 (JVal.obj JFields.nil) (JVal.arr JList.nil) (Or.inr rfl)

/-! Path resolution (claim C5). -/

theorem resolveInDir_eq_find (sys : Sys) (d : String) :
    ∀ files : List String,
      resolveInDir sys d files = (files.map (joinPath d)).find? sys.fsExists
  | [] => rfl
  | f :: rest => by
      cases h : sys.fsExists (joinPath d f) <;>
        simp [resolveInDir, List.find?, h, resolveInDir_eq_find sys d rest]

theorem resolveLoop_eq_find (sys : Sys) (files : List String) :
    ∀ dirs : List String,
      resolveLoop sys files dirs
        = ((dirs.flatMap fun d => files.map (joinPath d)).find? sys.fsExists)
  | [] => rfl
  | d :: rest => by
      rw [List.flatMap_cons, List.find?_append]
      rw [show resolveLoop sys files (d :: rest)
            = (match resolveInDir sys d files with
               | some p => some p
               | none => resolveLoop sys files rest) from rfl]
      rw [resolveInDir_eq_find sys d files, resolveLoop_eq_find sys files rest]
      cases ((files.map (joinPath d)).find? sys.fsExists) <;> simp [Option.or]

/-- Claim C5: `_resolvePath` iterates search directories as the outer loop
and filename candidates as the inner loop, returning the first candidate
pair whose absolute path exists (the candidate as-is when absolute, else
joined to the directory — that is `joinPath`), and none when nothing
exists; in particular with directories `[/D1, /D2]` and candidates
`[f1, f2]` where only `/D2/f1` and `/D1/f2` exist, the result is
`/D1/f2`. -/
theorem resolvePath_order :
    (∀ (sys : Sys) (files dirs : List String),
        resolvePath sys (StrOrArr.arr files) (StrOrArr.arr dirs)
          = ((dirs.flatMap fun d => files.map (joinPath d)).find? sys.fsExists))
    ∧ resolvePath prSys (StrOrArr.arr ["f1", "f2"]) (StrOrArr.arr ["/D1", "/D2"]) = some "/D1/f2" :=
  ⟨fun sys files dirs => resolveLoop_eq_find sys files dirs, rfl⟩

/-- Claim C8: loading a config file never fails for a missing or unset
path — a none/empty path or a non-existent file yields the empty mapping,
and a parsed document that is not an object also yields the empty mapping
— while a structured-text parse error or a failing code-module load
propagates unchanged as the error of `_loadFile`, and such an error aborts
`loadConfig` with the same error (shown end-to-end on a process whose
defaults file exists but fails to parse). -/
theorem loadFile_cases :
    (∀ sys : Sys, loadFile sys none = Except.ok (JVal.obj JFields.nil))
    ∧ (∀ sys : Sys, loadFile sys (some "") = Except.ok (JVal.obj JFields.nil))
    ∧ (∀ (sys : Sys) (f : String), sys.fsExists f = false →
        loadFile sys (some f) = Except.ok (JVal.obj JFields.nil))
    ∧ (∀ (sys : Sys) (f : String) (v : JVal), f ≠ "" → sys.fsExists f = true →
        endsDotJs f = false → sys.readYaml f = Except.ok v → isObjectTruthy v = false →
        loadFile sys (some f) = Except.ok (JVal.obj JFields.nil))
    ∧ (∀ (sys : Sys) (f e : String), f ≠ "" → sys.fsExists f = true →
        endsDotJs f = false → sys.readYaml f = Except.error e →
        loadFile sys (some f) = Except.error e)
    ∧ (∀ (sys : Sys) (f e : String), f ≠ "" → sys.fsExists f = true →
        endsDotJs f = true → sys.readModule f = Except.error e →
        loadFile sys (some f) = Except.error e)
    ∧ (loadConfig ovLC badSys).1 = Except.error "bad parse" := by
  refine ⟨fun _ => rfl, fun sys => by simp [loadFile], ?_, ?_, ?_, ?_, rfl⟩
  · intro sys f h
    by_cases hf : f = "" <;> simp [loadFile, hf, h]
  · intro sys f v hf he hj hy hv
    simp [loadFile, hf, he, hj, hy, hv]
  · intro sys f e hf he hj hy
    simp [loadFile, hf, he, hj, hy]
  · intro sys f e hf he hj hm
    simp [loadFile, hf, he, hj, hm]

/-- Witness for C8 at concrete inputs. -/
theorem loadFile_cases_witness :
    loadFile badSys none = Except.ok (JVal.obj JFields.nil)
    ∧ loadFile badSys (some "/nope") = Except.ok (JVal.obj JFields.nil)
    ∧ loadFile numSys (some "/a.conf") = Except.ok (JVal.obj JFields.nil)
    ∧ loadFile badSys (some "/app/myapp-defaults.conf") = Except.error "bad parse"
    ∧ loadFile numSys (some "/m.js") = Except.error "module error" := by
  refine ⟨loadFile_cases.1 badSys, ?_, ?_, ?_, ?_⟩
  · exact loadFile_cases.2.2.1 badSys "/nope" rfl
  · exact loadFile_cases.2.2.2.1 numSys "/a.conf" (JVal.num 5) (by decide) rfl rfl rfl rfl
  · exact loadFile_cases.2.2.2.2.1 badSys "/app/myapp-defaults.conf" "bad parse" (by decide) rfl rfl rfl
  · exact loadFile_cases.2.2.2.2.2.1 numSys "/m.js" "module error" (by decide) rfl rfl rfl

/-! Environment resolution (claim C2). -/

theorem findConfigEnvironment_fst (lc : LittleConf) (sys : Sys) :
    (findConfigEnvironment lc sys).1
      = specResolveEnvironment lc.options sys.env (getProjectName lc sys).1 := by
  simp only [findConfigEnvironment, specResolveEnvironment, firstTruthy, getCLIArgument_eq]
  cases h1 : truthyOpt lc.options.environmentOverride with
  | some s => simp
  | none =>
      cases h2 : truthyOpt (lc.options.argv.bind fun a =>
          findStr a (truthyOr lc.options.cliArgumentEnvironment "config-env")) with
      | some s => simp
      | none =>
          cases h3 : truthyOpt lc.options.envVariableEnvironment with
          | some s =>
              rw [truthyOr_of_some h3]
              cases h4 : truthyOpt (findStr sys.env s) with
              | some t => simp
              | none =>
                  cases h5 : truthyOpt (findStr sys.env "NODE_ENV") <;> simp
          | none =>
              rw [truthyOr_of_none h3]
              cases h4 : truthyOpt (findStr sys.env (upperSnake (getProjectName lc sys).1 ++ "_ENV")) with
              | some t => simp
              | none =>
                  cases h5 : truthyOpt (findStr sys.env "NODE_ENV") <;> simp

theorem findConfigEnvironment_ne_empty (lc : LittleConf) (sys : Sys) :
    (findConfigEnvironment lc sys).1 ≠ "" := by
  simp only [findConfigEnvironment]
  cases h1 : truthyOpt lc.options.environmentOverride with
  | some s => exact truthyOpt_ne_empty h1
  | none =>
      cases h2 : truthyOpt (getCLIArgument lc (truthyOr lc.options.cliArgumentEnvironment "config-env")) with
      | some s => exact truthyOpt_ne_empty h2
      | none =>
          cases h3 : truthyOpt lc.options.envVariableEnvironment with
          | some s =>
              cases h4 : truthyOpt (findStr sys.env s) with
              | some t => exact truthyOpt_ne_empty h4
              | none =>
                  cases h5 : truthyOpt (findStr sys.env "NODE_ENV") with
                  | some t => exact truthyOpt_ne_empty h5
                  | none => exact truthyOr_ne_empty (by decide)
          | none =>
              cases h4 : truthyOpt (findStr sys.env (upperSnake (getProjectName lc sys).1 ++ "_ENV")) with
              | some t => exact truthyOpt_ne_empty h4
              | none =>
                  cases h5 : truthyOpt (findStr sys.env "NODE_ENV") with
                  | some t => exact truthyOpt_ne_empty h5
                  | none => exact truthyOr_ne_empty (by decide)

theorem getConfigEnvironment_cached_eval (lc : LittleConf) (sys : Sys) (e : String)
    (he : e ≠ "") (hl : lc.environment = some e) : getConfigEnvironment lc sys = (e, lc) := by
  simp [getConfigEnvironment, hl, truthyOpt, he]

theorem getConfigEnvironment_caches (lc : LittleConf) (sys : Sys) :
    ((getConfigEnvironment lc sys).2).environment = some (getConfigEnvironment lc sys).1
    ∧ getConfigEnvironment ((getConfigEnvironment lc sys).2) sys = getConfigEnvironment lc sys := by
  cases h : truthyOpt lc.environment with
  | some e =>
      have he : lc.environment = some e := truthyOpt_some_eq h
      have h1 : getConfigEnvironment lc sys = (e, lc) := by simp only [getConfigEnvironment, h]
      rw [h1]
      exact ⟨he, h1⟩
  | none =>
      have hne := findConfigEnvironment_ne_empty lc sys
      have h1 : getConfigEnvironment lc sys
          = ((findConfigEnvironment lc sys).1,
             { (findConfigEnvironment lc sys).2 with
                environment := some (findConfigEnvironment lc sys).1 }) := by
        simp only [getConfigEnvironment, h]
      rw [h1]
      refine ⟨rfl, ?_⟩
      exact getConfigEnvironment_cached_eval _ sys _ hne rfl

/-- Claim C2: on a loader whose environment is not yet cached, the
resolved environment name equals the specification's fixed priority chain
`specResolveEnvironment` (override option, then CLI argument named by
`cliArgumentEnvironment` or `config-env`, then the environment variable
named by `envVariableEnvironment` or the upper-snake project name plus
`_ENV`, then `NODE_ENV`, then `defaultEnvironment` or `local`); and the
result is cached after the first call: the returned state stores it, and a
second call returns the same value and state unchanged. -/
theorem environment_priority_chain :
    (∀ (lc : LittleConf) (sys : Sys), lc.environment = none →
        (getConfigEnvironment lc sys).1
          = specResolveEnvironment lc.options sys.env (getProjectName lc sys).1)
    ∧ (∀ (lc : LittleConf) (sys : Sys),
        ((getConfigEnvironment lc sys).2).environment = some (getConfigEnvironment lc sys).1
        ∧ getConfigEnvironment ((getConfigEnvironment lc sys).2) sys = getConfigEnvironment lc sys) := by
  constructor
  · intro lc sys h
    have hto : truthyOpt lc.environment = none := by simp [h, truthyOpt]
    simp only [getConfigEnvironment, hto]
    exact findConfigEnvironment_fst lc sys
  · exact getConfigEnvironment_caches

/-- Witness for C2 at concrete inputs. -/
theorem environment_priority_chain_witness :
    exLC.environment = none
    ∧ (getConfigEnvironment exLC exSys).1
        = specResolveEnvironment exLC.options exSys.env (getProjectName exLC exSys).1
    ∧ (getConfigEnvironment exLC exSys).1 = "prod" :=
  ⟨rfl, environment_priority_chain.1 exLC exSys rfl, rfl⟩

/-- Claim C1: whenever `loadConfig` succeeds, its result is the
`environments`-stripped `_mergeConfig` of exactly five sources, each
identified as the value `loadConfig` computes, in this fixed order (later
wins): the defaults config `defaultsConfigOf`, the defaults
`environments.<env>` block (empty when absent or falsy), the main config
`mainConfigOf`, the main `environments.<env>` block, and the collected
overrides `overridesOf`, with `<env>` the resolved environment `envOf`;
and on the end-to-end example (defaults
`{port:80, environments:{prod:{port:443}}}`, main `{host:"x"}`,
environment `prod`, empty overrides) the result is `{port:443, host:"x"}`
with no `environments` key. -/
theorem loadConfig_five_source_merge :
    (∀ (lc : LittleConf) (sys : Sys) (d m r : JVal) (lc' : LittleConf),
        defaultsConfigOf lc sys = Except.ok d →
        mainConfigOf lc sys = Except.ok m →
        loadConfig lc sys = (Except.ok r, lc') →
        r = deleteTop (mergeConfig
            [d,
             getPathD d ("environments." ++ envOf lc sys),
             m,
             getPathD m ("environments." ++ envOf lc sys),
             overridesOf lc sys]) "environments")
    ∧ (loadConfig exLC exSys).1
        = Except.ok (JVal.obj (JFields.ofList [("port", JVal.num 443), ("host", JVal.str "x")])) := by
  constructor
  · intro lc sys d m r lc' hd hm h
    simp only [defaultsConfigOf, defaultsPathOf] at hd
    simp only [mainConfigOf, mainPathOf, lcAfterDefaults] at hm
    simp only [loadConfig] at h
    split at h
    · rename_i e heq
      rw [hd] at heq
      exact absurd heq (by simp)
    · split at h
      · rename_i d' hd' e heq
        rw [hm] at heq
        exact absurd heq (by simp)
      · rename_i xd d' hd' xm m' hm'
        rw [hd] at hd'
        injection hd' with hd'
        subst hd'
        rw [hm] at hm'
        injection hm' with hm'
        subst hm'
        simp only [Prod.mk.injEq, Except.ok.injEq] at h
        rw [← h.1]
        simp only [envOf, overridesOf, lcAfterMain, lcAfterDefaults]
  · rfl

/-- Witness for C1 at the example loader and process: the defaults and
main configs load to the two example documents, and the merge identity
instantiates to the expected `{port:443, host:"x"}`. -/
theorem loadConfig_five_source_merge_witness :
    defaultsConfigOf exLC exSys = Except.ok exDefaults
    ∧ mainConfigOf exLC exSys = Except.ok exMain
    ∧ JVal.obj (JFields.ofList [("port", JVal.num 443), ("host", JVal.str "x")])
        = deleteTop (mergeConfig
            [exDefaults,
             getPathD exDefaults ("environments." ++ envOf exLC exSys),
             exMain,
             getPathD exMain ("environments." ++ envOf exLC exSys),
             overridesOf exLC exSys]) "environments" :=
  ⟨rfl, rfl,
   loadConfig_five_source_merge.1 exLC exSys exDefaults exMain _ (loadConfig exLC exSys).2
     rfl rfl (by rfl)⟩

/-! Distinct-keys preservation, leading to claim C6. -/

theorem keyMem_setField : ∀ (fs : JFields) (k : String) (v : JVal) (j : String),
    keyMem j (setField fs k v) = (keyMem j fs || decide (k = j))
  | JFields.nil, k, v, j => by simp [setField, keyMem]
  | JFields.cons k' w rest, k, v, j => by
      by_cases h : k' = k
      · subst h
        simp [setField, keyMem]
        by_cases hj : k' = j <;> simp [hj]
      · simp [setField, keyMem, h, keyMem_setField rest k v j, Bool.or_assoc]

theorem keysDistinct_setField : ∀ (fs : JFields) (k : String) (v : JVal),
    keysDistinct fs = true → keysDistinct (setField fs k v) = true
  | JFields.nil, k, v, _ => by simp [setField, keysDistinct, keyMem]
  | JFields.cons k' w rest, k, v, h => by
      simp only [keysDistinct, Bool.and_eq_true, Bool.not_eq_true'] at h
      by_cases hk : k' = k
      · subst hk
        simp [setField, keysDistinct, h.1, h.2]
      · simp [setField, keysDistinct, hk, keyMem_setField,
          keysDistinct_setField rest k v h.2, h.1, Ne.symm hk]

theorem keysDistinct_mergeIntoFields : ∀ (fb fa : JFields),
    keysDistinct fa = true → keysDistinct (mergeIntoFields fa fb) = true
  | JFields.nil, fa, h => h
  | JFields.cons k w rest, fa, h => by
      simp only [mergeIntoFields]
      exact keysDistinct_mergeIntoFields rest _ (keysDistinct_setField fa k _ h)

theorem wfKeys_obj_elim {fs : JFields} (h : wfKeys (JVal.obj fs) = true) :
    keysDistinct fs = true ∧ wfKeysF fs = true := by
  simpa [wfKeys, Bool.and_eq_true] using h

theorem topDistinct_mergeVals (a b : JVal) (ha : topDistinct a = true) (hb : wfKeys b = true) :
    topDistinct (mergeVals a b) = true := by
  cases b with
  | obj fb =>
      cases a with
      | obj fa =>
          simpa [mergeVals, topDistinct] using
            keysDistinct_mergeIntoFields fb fa (by simpa [topDistinct] using ha)
      | null => simpa [mergeVals, topDistinct] using (wfKeys_obj_elim hb).1
      | bool x => simpa [mergeVals, topDistinct] using (wfKeys_obj_elim hb).1
      | num x => simpa [mergeVals, topDistinct] using (wfKeys_obj_elim hb).1
      | str x => simpa [mergeVals, topDistinct] using (wfKeys_obj_elim hb).1
      | arr x => simpa [mergeVals, topDistinct] using (wfKeys_obj_elim hb).1
  | null => simp [mergeVals, topDistinct]
  | bool x => simp [mergeVals, topDistinct]
  | num x => simp [mergeVals, topDistinct]
  | str x => simp [mergeVals, topDistinct]
  | arr x => simp [mergeVals, topDistinct]

theorem topDistinct_foldl_mergeVals :
    ∀ (configs : List JVal) (acc : JVal), topDistinct acc = true →
      (∀ c ∈ configs, wfKeys c = true) → topDistinct (configs.foldl mergeVals acc) = true := by
  intro configs
  induction configs with
  | nil => intro acc ha _; exact ha
  | cons c rest ih =>
      intro acc ha hall
      simp only [List.foldl_cons]
      exact ih _ (topDistinct_mergeVals acc c ha (hall c (by simp)))
        (fun d hd => hall d (by simp [hd]))

theorem keyMem_removeNullsF : ∀ (fs : JFields) (k : String),
    keyMem k (removeNullsF fs) = true → keyMem k fs = true
  | JFields.cons k' v rest, k, h => by
      cases v with
      | null =>
          simp only [removeNullsF] at h
          simp [keyMem, keyMem_removeNullsF rest k h]
      | bool b =>
          simp only [removeNullsF, keyMem, Bool.or_eq_true] at h ⊢
          rcases h with h | h
          · exact Or.inl h
          · exact Or.inr (keyMem_removeNullsF rest k h)
      | num n =>
          simp only [removeNullsF, keyMem, Bool.or_eq_true] at h ⊢
          rcases h with h | h
          · exact Or.inl h
          · exact Or.inr (keyMem_removeNullsF rest k h)
      | str s =>
          simp only [removeNullsF, keyMem, Bool.or_eq_true] at h ⊢
          rcases h with h | h
          · exact Or.inl h
          · exact Or.inr (keyMem_removeNullsF rest k h)
      | arr xs =>
          simp only [removeNullsF, keyMem, Bool.or_eq_true] at h ⊢
          rcases h with h | h
          · exact Or.inl h
          · exact Or.inr (keyMem_removeNullsF rest k h)
      | obj fs' =>
          simp only [removeNullsF, keyMem, Bool.or_eq_true] at h ⊢
          rcases h with h | h
          · exact Or.inl h
          · exact Or.inr (keyMem_removeNullsF rest k h)

theorem keysDistinct_removeNullsF : ∀ fs : JFields,
    keysDistinct fs = true → keysDistinct (removeNullsF fs) = true
  | JFields.nil, _ => rfl
  | JFields.cons k v rest, h => by
      simp only [keysDistinct, Bool.and_eq_true, Bool.not_eq_true'] at h
      have hmem : keyMem k (removeNullsF rest) = false := by
        cases hm : keyMem k (removeNullsF rest)
        · rfl
        · exact absurd (keyMem_removeNullsF rest k hm) (by simp [h.1])
      cases v with
      | null => exact keysDistinct_removeNullsF rest h.2
      | bool b => simp [removeNullsF, keysDistinct, hmem, keysDistinct_removeNullsF rest h.2]
      | num n => simp [removeNullsF, keysDistinct, hmem, keysDistinct_removeNullsF rest h.2]
      | str s => simp [removeNullsF, keysDistinct, hmem, keysDistinct_removeNullsF rest h.2]
      | arr xs => simp [removeNullsF, keysDistinct, hmem, keysDistinct_removeNullsF rest h.2]
      | obj fs' => simp [removeNullsF, keysDistinct, hmem, keysDistinct_removeNullsF rest h.2]

theorem topDistinct_removeNulls (v : JVal) (h : topDistinct v = true) :
    topDistinct (removeNulls v) = true := by
  cases v with
  | obj fs =>
      simpa [removeNulls, topDistinct] using
        keysDistinct_removeNullsF fs (by simpa [topDistinct] using h)
  | null => rfl
  | bool b => rfl
  | num n => rfl
  | str s => rfl
  | arr xs => simp [removeNulls, topDistinct]

theorem topDistinct_mergeConfig (configs : List JVal)
    (h : ∀ c ∈ configs, wfKeys c = true) : topDistinct (mergeConfig configs) = true :=
  topDistinct_removeNulls _ (topDistinct_foldl_mergeVals configs (JVal.obj JFields.nil) rfl h)

theorem findVal_deleteField : ∀ (fs : JFields) (k : String),
    keysDistinct fs = true → findVal k (deleteField fs k) = none
  | JFields.nil, k, _ => rfl
  | JFields.cons k' v rest, k, h => by
      simp only [keysDistinct, Bool.and_eq_true, Bool.not_eq_true'] at h
      by_cases hk : k' = k
      · subst hk
        simpa [deleteField] using findVal_none_of_not_keyMem rest k' h.1
      · simp [deleteField, hk, findVal, findVal_deleteField rest k h.2]

theorem topFind_deleteTop (v : JVal) (k : String) (h : topDistinct v = true) :
    topFind (deleteTop v k) k = none := by
  cases v with
  | obj fs =>
      simpa [deleteTop, topFind] using findVal_deleteField fs k (by simpa [topDistinct] using h)
  | null => rfl
  | bool b => rfl
  | num n => rfl
  | str s => rfl
  | arr xs => rfl

theorem wfKeysF_findVal : ∀ (fs : JFields) (k : String) (w : JVal),
    wfKeysF fs = true → findVal k fs = some w → wfKeys w = true
  | JFields.cons k' v rest, k, w, hwf, h => by
      simp only [wfKeysF, Bool.and_eq_true] at hwf
      by_cases hk : k' = k
      · subst hk
        simp [findVal] at h
        exact h ▸ hwf.1
      · simp only [findVal, if_neg hk] at h
        exact wfKeysF_findVal rest k w hwf.2 h

theorem wfKeys_getPathL : ∀ (path : List String) (v w : JVal),
    wfKeys v = true → getPathL path v = some w → wfKeys w = true := by
  intro path
  induction path with
  | nil =>
      intro v w hv h
      simp only [getPathL, Option.some.injEq] at h
      exact h ▸ hv
  | cons k rest ih =>
      intro v w hv h
      cases v with
      | obj fs =>
          simp only [getPathL] at h
          cases hf : findVal k fs with
          | none => rw [hf] at h; exact absurd h (by simp)
          | some u =>
              rw [hf] at h
              exact ih u w (wfKeysF_findVal fs k u (wfKeys_obj_elim hv).2 hf) h
      | null => exact absurd h (by simp [getPathL])
      | bool b => exact absurd h (by simp [getPathL])
      | num n => exact absurd h (by simp [getPathL])
      | str s => exact absurd h (by simp [getPathL])
      | arr xs => exact absurd h (by simp [getPathL])

theorem wfKeys_getPathD (v : JVal) (p : String) (hv : wfKeys v = true) :
    wfKeys (getPathD v p) = true := by
  unfold getPathD
  cases h : getPath v p with
  | none => rfl
  | some w =>
      by_cases ht : jsTruthy w = true
      · show wfKeys (if jsTruthy w = true then w else JVal.obj JFields.nil) = true
        rw [if_pos ht]
        exact wfKeys_getPathL (splitDots p) v w hv h
      · show wfKeys (if jsTruthy w = true then w else JVal.obj JFields.nil) = true
        rw [if_neg ht]
        rfl

theorem wfKeysF_setField : ∀ (fs : JFields) (k : String) (m : JVal),
    wfKeysF fs = true → wfKeys m = true → wfKeysF (setField fs k m) = true
  | JFields.nil, k, m, _, hm => by simp [setField, wfKeysF, hm]
  | JFields.cons k' w rest, k, m, hf, hm => by
      simp only [wfKeysF, Bool.and_eq_true] at hf
      by_cases hk : k' = k
      · subst hk
        simp [setField, wfKeysF, hm, hf.2]
      · simp [setField, hk, wfKeysF, hf.1, wfKeysF_setField rest k m hf.2 hm]

theorem wfKeys_objFieldsOf (v : JVal) (hv : wfKeys v = true) :
    keysDistinct (objFieldsOf v) = true ∧ wfKeysF (objFieldsOf v) = true := by
  cases v with
  | obj fs => simpa [objFieldsOf] using wfKeys_obj_elim hv
  | null => exact ⟨rfl, rfl⟩
  | bool b => exact ⟨rfl, rfl⟩
  | num n => exact ⟨rfl, rfl⟩
  | str s => exact ⟨rfl, rfl⟩
  | arr xs => exact ⟨rfl, rfl⟩

theorem wfKeys_setPathL : ∀ (path : List String) (v nv : JVal),
    wfKeys v = true → wfKeys nv = true → wfKeys (setPathL path v nv) = true := by
  intro path
  induction path with
  | nil => intro v nv _ hnv; exact hnv
  | cons k rest ih =>
      intro v nv hv hnv
      obtain ⟨hd, hf⟩ := wfKeys_objFieldsOf v hv
      have hcur : wfKeys ((findVal k (objFieldsOf v)).getD (JVal.obj JFields.nil)) = true := by
        cases hc : findVal k (objFieldsOf v) with
        | none => rfl
        | some u => simpa using wfKeysF_findVal _ k u hf hc
      have hm := ih _ nv hcur hnv
      simp only [setPathL, wfKeys, Bool.and_eq_true]
      exact ⟨keysDistinct_setField _ k _ hd, wfKeysF_setField _ k _ hf hm⟩

theorem wfKeys_setPath (v : JVal) (p : String) (nv : JVal)
    (hv : wfKeys v = true) (hnv : wfKeys nv = true) : wfKeys (setPath v p nv) = true :=
  wfKeys_setPathL (splitDots p) v nv hv hnv

theorem wfKeys_collectFold (pre : String) :
    ∀ (l : List (String × String)) (acc : JVal), wfKeys acc = true →
      wfKeys (l.foldl
        (fun acc kv =>
          match matchRest pre kv.1 with
          | some rest => setPath acc rest (JVal.str kv.2)
          | none => acc) acc) = true := by
  intro l
  induction l with
  | nil => intro acc ha; exact ha
  | cons kv rest ih =>
      intro acc ha
      simp only [List.foldl_cons]
      apply ih
      cases hm : matchRest pre kv.1 with
      | none => simpa [hm] using ha
      | some r => simpa [hm] using wfKeys_setPath acc r (JVal.str kv.2) ha rfl

theorem wfKeys_collectEnvOverrides (pre : String) (env : List (String × String)) (acc : JVal)
    (ha : wfKeys acc = true) : wfKeys (collectEnvOverrides pre env acc) = true :=
  wfKeys_collectFold pre env acc ha

theorem wfKeys_collectArgvOverrides (argv : Option (List (String × String))) (acc : JVal)
    (ha : wfKeys acc = true) : wfKeys (collectArgvOverrides argv acc) = true :=
  wfKeys_collectFold "config-setting-" (argv.getD []) acc ha

theorem loadFile_wf (sys : Sys)
    (hy : ∀ p v, sys.readYaml p = Except.ok v → wfKeys v = true)
    (hm : ∀ p v, sys.readModule p = Except.ok v → wfKeys v = true) :
    ∀ (fp : Option String) (v : JVal), loadFile sys fp = Except.ok v → wfKeys v = true := by
  intro fp v h
  cases fp with
  | none =>
      simp only [loadFile, Except.ok.injEq] at h
      exact h ▸ rfl
  | some f =>
      simp only [loadFile] at h
      by_cases hf : f = ""
      · subst hf
        rw [if_pos rfl] at h
        injection h with h
        exact h ▸ rfl
      · rw [if_neg hf] at h
        by_cases he : sys.fsExists f
        · rw [he] at h
          simp only [Bool.not_true, Bool.false_eq_true, if_false] at h
          by_cases hj : endsDotJs f
          · rw [if_pos hj] at h
            exact hm f v h
          · rw [if_neg hj] at h
            cases hyv : sys.readYaml f with
            | error e => rw [hyv] at h; exact absurd h (by simp)
            | ok u =>
                rw [hyv] at h
                by_cases ho : isObjectTruthy u
                · simp only [ho, Bool.not_true, Bool.false_eq_true, if_false, Except.ok.injEq] at h
                  exact h ▸ hy f u hyv
                · simp only [ho, Bool.not_false, if_true, Except.ok.injEq] at h
                  exact h ▸ rfl
        · simp only [Bool.not_eq_true] at he
          rw [he] at h
          simp only [Bool.not_false, if_true, Except.ok.injEq] at h
          exact h ▸ rfl

theorem loadMainResult_wf (sys : Sys)
    (hy : ∀ p v, sys.readYaml p = Except.ok v → wfKeys v = true)
    (hm : ∀ p v, sys.readModule p = Except.ok v → wfKeys v = true)
    (mp : Option String) (m : JVal)
    (h : (match mp with
          | some p => loadFile sys (some p)
          | none => Except.ok (JVal.obj JFields.nil)) = Except.ok m) :
    wfKeys m = true := by
  cases mp with
  | some p => exact loadFile_wf sys hy hm (some p) m h
  | none =>
      simp only [Except.ok.injEq] at h
      exact h ▸ rfl

/-- Claim C6: for every combination of input sources whose parsed
documents are well-formed JavaScript values (objects never hold duplicate
keys), the mapping returned by a successful `loadConfig` has no top-level
`environments` key — even when every input source carries one. -/
theorem loadConfig_no_env_key :
    ∀ (lc : LittleConf) (sys : Sys) (r : JVal) (lc' : LittleConf),
      (∀ p v, sys.readYaml p = Except.ok v → wfKeys v = true) →
      (∀ p v, sys.readModule p = Except.ok v → wfKeys v = true) →
      loadConfig lc sys = (Except.ok r, lc') →
      topFind r "environments" = none := by
  intro lc sys r lc' hy hmod h
  simp only [loadConfig] at h
  split at h
  · simp at h
  · split at h
    · simp at h
    · rename_i xd d hd xm m hm
      simp only [Prod.mk.injEq, Except.ok.injEq] at h
      obtain ⟨h1, -⟩ := h
      subst h1
      have hwd : wfKeys d = true := loadFile_wf sys hy hmod _ d hd
      have hwm : wfKeys m = true := loadMainResult_wf sys hy hmod _ m hm
      apply topFind_deleteTop
      apply topDistinct_mergeConfig
      intro c hc
      simp only [List.mem_cons, List.not_mem_nil, or_false] at hc
      rcases hc with rfl | rfl | rfl | rfl | rfl
      · exact hwd
      · exact wfKeys_getPathD d _ hwd
      · exact hwm
      · exact wfKeys_getPathD m _ hwm
      · exact wfKeys_collectArgvOverrides _ _ (wfKeys_collectEnvOverrides _ _ _ rfl)

theorem exSys_readYaml_wf : ∀ p v, exSys.readYaml p = Except.ok v → wfKeys v = true := by
  intro p v h
  simp only [exSys] at h
  split_ifs at h
  · injection h with h
    subst h
    rfl
  · injection h with h
    subst h
    rfl

theorem exSys_readModule_wf : ∀ p v, exSys.readModule p = Except.ok v → wfKeys v = true := by
  intro p v h
  simp only [exSys] at h
  exact absurd h (by simp)

/-- Witness for C6: the example load succeeds and its result carries no
`environments` key. -/
theorem loadConfig_no_env_key_witness :
    topFind (JVal.obj (JFields.ofList [("port", JVal.num 443), ("host", JVal.str "x")]))
      "environments" = none :=
  loadConfig_no_env_key exLC exSys _ (loadConfig exLC exSys).2
    exSys_readYaml_wf exSys_readModule_wf (by rfl)

/-! Environment-variable overrides (claim C4). -/

theorem isPreL_append : ∀ p r : List Char, isPreL p (p ++ r) = true := by
  intro p r
  induction p with
  | nil => rfl
  | cons c cs ih => simp [isPreL, ih]

theorem matchRest_append (pre rest : String) (h : noLineTerm rest = true) :
    matchRest pre (pre ++ rest) = some rest := by
  have hs : strStarts (pre ++ rest) pre = true := by
    simpa [strStarts, String.data_append] using isPreL_append pre.data rest.data
  have hd : strDropChars (pre ++ rest) pre.length = rest := by
    show String.mk (((pre ++ rest).data).drop pre.data.length) = rest
    rw [String.data_append, List.drop_left]
  simp [matchRest, hs, hd, h]

theorem collectEnvOverrides_single (pre rest val : String) (acc : JVal)
    (h : noLineTerm rest = true) :
    collectEnvOverrides pre [(pre ++ rest, val)] acc = setPath acc rest (JVal.str val) := by
  simp [collectEnvOverrides, matchRest_append pre rest h]

/-- Counterexample to claim C4 as stated: with project name `myapp` and
the single environment variable `MYAPP_CONFIG_DB_HOST=foo`, the merged
result holds the string at the top-level key `DB_HOST` taken verbatim
(case preserved, underscores not turned into dots), and its `db.host` path
holds the file-sourced value `"filehost"`, not `"foo"` — so the claimed
`{db:{host:"foo"}}` is absent. -/
theorem envOverride_counterexample :
    (loadConfig ovLC ovSys).1
      = Except.ok (JVal.obj (JFields.ofList
          [("DB_HOST", JVal.str "foo"),
           ("db", JVal.obj (JFields.ofList [("host", JVal.str "filehost")]))]))
    ∧ getPath (JVal.obj (JFields.ofList
          [("DB_HOST", JVal.str "foo"),
           ("db", JVal.obj (JFields.ofList [("host", JVal.str "filehost")]))])) "db.host"
        = some (JVal.str "filehost")
    ∧ JVal.str "filehost" ≠ JVal.str "foo" := by
  refine ⟨rfl, rfl, ?_⟩
  intro h
  injection h with h
  exact absurd h (by decide)

/-- Claim C4 as amended: an environment variable whose name is the
override pattern followed by `<REST>` is assigned into the override
mapping at the dotted path `<REST>` taken verbatim (no case or underscore
transform), so `MYAPP_CONFIG_DB_HOST=foo` with project `myapp` yields a
merged result holding `DB_HOST: "foo"` at top level, which overrides the
file-sourced value at that same key (the file's `DB_HOST: "bar"` loses). -/
theorem envOverride_verbatim :
    (∀ (pre rest val : String) (acc : JVal), noLineTerm rest = true →
        collectEnvOverrides pre [(pre ++ rest, val)] acc = setPath acc rest (JVal.str val))
    ∧ (loadConfig ovLC ovSys).1
        = Except.ok (JVal.obj (JFields.ofList
            [("DB_HOST", JVal.str "foo"),
             ("db", JVal.obj (JFields.ofList [("host", JVal.str "filehost")]))])) :=
  ⟨collectEnvOverrides_single, rfl⟩

/-- Witness for the amended C4 at concrete inputs. -/
theorem envOverride_verbatim_witness :
    noLineTerm "DB_HOST" = true
    ∧ collectEnvOverrides "MYAPP_CONFIG_" [("MYAPP_CONFIG_" ++ "DB_HOST", "foo")] (JVal.obj JFields.nil)
        = setPath (JVal.obj JFields.nil) "DB_HOST" (JVal.str "foo") :=
  ⟨by decide, envOverride_verbatim.1 "MYAPP_CONFIG_" "DB_HOST" "foo" (JVal.obj JFields.nil) (by decide)⟩

/-! The memoized wrapper (claims C9 and C10). -/

theorem cacheGet_cacheSet (cache : List (LittleConfOptions × JVal)) (o : LittleConfOptions) (v : JVal) :
    cacheGet (cacheSet cache o v) o = some v := by
  induction cache with
  | nil => simp [cacheSet, cacheGet]
  | cons kv rest ih =>
      obtain ⟨k, w⟩ := kv
      by_cases hk : k = o
      · subst hk
        simp [cacheSet, cacheGet]
      · simp [cacheSet, cacheGet, hk, ih]

theorem isObjB_truthy (v : JVal) (h : isObjB v = true) : jsTruthy v = true := by
  cases v <;> simp [isObjB, jsTruthy] at h ⊢

/-- Claim C9: when a `getConfig` call returns a configuration object
(arrays and mappings — always truthy in JavaScript), a second call with
the same (deep-equal, hence identically keyed) options returns that
identical cached value from the process-wide cache without running
`loadConfig` — i.e. without performing any file load (final flag
`false`). -/
theorem getConfig_memoizes :
    ∀ (cache : List (LittleConfOptions × JVal)) (opts : LittleConfOptions) (sys : Sys)
      (v : JVal) (c1 : List (LittleConfOptions × JVal)) (b : Bool),
      getConfig cache opts sys = (Except.ok v, c1, b) →
      isObjB v = true →
      getConfig c1 opts sys = (Except.ok v, c1, false) := by
  intro cache opts sys v c1 b h hv
  have htr := isObjB_truthy v hv
  simp only [getConfig] at h ⊢
  cases hc : cacheGet cache opts with
  | some w =>
      simp only [hc] at h
      by_cases ht : jsTruthy w = true
      · rw [if_pos ht] at h
        simp only [Prod.mk.injEq, Except.ok.injEq] at h
        obtain ⟨h1, h2, -⟩ := h
        subst h1
        subst h2
        simp only [hc, if_pos ht]
      · rw [if_neg ht] at h
        simp only [getConfigLoad] at h
        cases hl : (loadConfig { options := opts } sys).1 with
        | error e => simp only [hl] at h; exact absurd h (by simp)
        | ok u =>
            simp only [hl, Prod.mk.injEq, Except.ok.injEq] at h
            obtain ⟨h1, h2, -⟩ := h
            subst h1
            subst h2
            simp [cacheGet_cacheSet, htr]
  | none =>
      simp only [hc, getConfigLoad] at h
      cases hl : (loadConfig { options := opts } sys).1 with
      | error e => simp only [hl] at h; exact absurd h (by simp)
      | ok u =>
          simp only [hl, Prod.mk.injEq, Except.ok.injEq] at h
          obtain ⟨h1, h2, -⟩ := h
          subst h1
          subst h2
          simp [cacheGet_cacheSet, htr]

/-- Witness for C9: a first call on the empty cache loads and caches the
example configuration; a second call returns it without loading. -/
theorem getConfig_memoizes_witness :
    getConfig ((getConfig [] ovLC.options ovSys).2.1) ovLC.options ovSys
      = (Except.ok (JVal.obj (JFields.ofList
          [("DB_HOST", JVal.str "foo"),
           ("db", JVal.obj (JFields.ofList [("host", JVal.str "filehost")]))])),
         (getConfig [] ovLC.options ovSys).2.1, false) :=
  getConfig_memoizes [] ovLC.options ovSys _ _ _ (by rfl) rfl

/-- Claim C10: when the cache has no truthy entry for the options and
`loadConfig` rejects, `getConfig` propagates the error and stores nothing
— the cache comes back unchanged — so a subsequent call with the same
options performs a fresh full load (flag `true`) rather than returning or
re-throwing a cached failure. -/
theorem getConfig_error_not_cached :
    ∀ (cache : List (LittleConfOptions × JVal)) (opts : LittleConfOptions) (sys : Sys) (e : String),
      (∀ w, cacheGet cache opts = some w → jsTruthy w = false) →
      (loadConfig { options := opts } sys).1 = Except.error e →
      getConfig cache opts sys = (Except.error e, cache, true)
      ∧ getConfig (getConfig cache opts sys).2.1 opts sys = (Except.error e, cache, true) := by
  intro cache opts sys e hfal hl
  have h1 : getConfig cache opts sys = (Except.error e, cache, true) := by
    simp only [getConfig, getConfigLoad]
    cases hc : cacheGet cache opts with
    | some w =>
        have hw := hfal w hc
        simp [hw, hl]
    | none => simp [hl]
  exact ⟨h1, by rw [h1, h1]⟩

/-- Witness for C10: a parse error on the empty cache leaves the cache
empty and the second call re-loads. -/
theorem getConfig_error_not_cached_witness :
    getConfig [] ovLC.options badSys = (Except.error "bad parse", [], true)
    ∧ getConfig (getConfig [] ovLC.options badSys).2.1 ovLC.options badSys
        = (Except.error "bad parse", [], true) :=
  getConfig_error_not_cached [] ovLC.options badSys "bad parse"
    (fun w h => by simp [cacheGet] at h) (by rfl)

end Littleconf
